import Mathlib

/-!
Verification development for the MeetKitAI agent brigade.

The Python modules under `.agent/agents/` are shallowly embedded:

* `ResponseCache` (AIProjectBrigade_Enhanced.py): the dict
  `cache : Dict[str, Tuple[str, datetime]]` is modelled as an association
  list in insertion order (Python dicts preserve insertion order, and
  assignment to an existing key keeps its position). `datetime` values are
  modelled as integers (seconds); `md5` hashing of the key content
  `f"{model}:{prompt}"` is modelled as the identity on that content string,
  so colliding contents collide exactly as in the code.
* `retry_with_backoff` (same file): the wrapped function's successive
  invocation outcomes are a function from attempt index to `ok`/`err`; the
  wrapper is a pure fold producing the result, the number of invocations
  and the list of sleep durations.
* `_parse_json` (same file): `json.loads` is modelled by a recursive-descent
  JSON reader (`json_loads`); theorems that do not depend on which strings
  are valid JSON are stated for an arbitrary decoder.
* `ProfileManager.suggest_profile` (profiles.py), `ValidationReport`
  (validation.py) and `_parallel_code_generation` /  `_save_code_files`
  (AIProjectBrigade_Enhanced.py) are embedded directly as pure functions.
-/

/-- Cache entry: key, cached response text, and storage timestamp
(`datetime.now()` at `set` time, in seconds). -/
abbrev CacheEntry : Type := String × String × Int

/-- `ResponseCache.__init__`: `max_size`, `ttl` (seconds) and the backing
dict, as an insertion-ordered association list. -/
structure ResponseCache where
  max_size : Nat
  ttl : Int
  cache : List CacheEntry

/-- `ResponseCache._hash_key`: the md5 of `f"{model}:{prompt}"`, modelled as
the content string itself. -/
def hashKey (prompt model : String) : String :=
  model ++ ":" ++ prompt

/-- Dict lookup `self.cache[key]` / `key in self.cache`. -/
def dictLookup : List CacheEntry → String → Option (String × Int)
  | [], _ => none
  | e :: es, k => if e.1 = k then some e.2 else dictLookup es k

/-- Dict deletion `del self.cache[key]`. -/
def dictDel : List CacheEntry → String → List CacheEntry
  | [], _ => []
  | e :: es, k => if e.1 = k then dictDel es k else e :: dictDel es k

/-- Dict membership `key in self.cache`. -/
def hasKey : List CacheEntry → String → Bool
  | [], _ => false
  | e :: es, k => if e.1 = k then true else hasKey es k

/-- In-place value replacement for an existing key (Python dict assignment
keeps the key's position). -/
def replaceKey : List CacheEntry → String → (String × Int) → List CacheEntry
  | [], _, _ => []
  | e :: es, k, v =>
      if e.1 = k then (k, v) :: replaceKey es k v else e :: replaceKey es k v

/-- Dict assignment `self.cache[key] = value`: replaces in place when the key
is present, otherwise appends (Python insertion order). -/
def dictInsert (cache : List CacheEntry) (k : String) (v : String × Int) :
    List CacheEntry :=
  if hasKey cache k then replaceKey cache k v else cache ++ [(k, v)]

/-- `min(self.cache, key=lambda k: self.cache[k][1])`: the key of the first
entry (in insertion order) with minimal timestamp; `none` on an empty dict
(where Python `min` raises). -/
def oldestKey (cache : List CacheEntry) : Option String :=
  match cache with
  | [] => none
  | e :: es =>
      some (es.foldl (fun best x => if x.2.2 < best.2.2 then x else best) e).1

/-- `ResponseCache.get`: returns the cached response when present and fresh
(`now - timestamp < ttl`), deletes the entry and returns `None` when present
but expired, returns `None` otherwise; `now` stands for `datetime.now()`. -/
def ResponseCache.get (c : ResponseCache) (prompt model : String) (now : Int) :
    Option String × ResponseCache :=
  let key := hashKey prompt model
  match dictLookup c.cache key with
  | some (response, timestamp) =>
      if now - timestamp < c.ttl then (some response, c)
      else (none, { c with cache := dictDel c.cache key })
  | none => (none, c)

/-- `ResponseCache.set`: when the dict already holds at least `max_size`
entries, first deletes the entry with the oldest timestamp, then assigns
`cache[key] = (response, now)`. -/
def ResponseCache.set (c : ResponseCache) (prompt model response : String)
    (now : Int) : ResponseCache :=
  let key := hashKey prompt model
  let cache :=
    if c.max_size ≤ c.cache.length then
      match oldestKey c.cache with
      | some k0 => dictDel c.cache k0
      | none => c.cache
    else c.cache
  { c with cache := dictInsert cache key (response, now) }

/-- `ResponseCache.clear`. -/
def ResponseCache.clear (c : ResponseCache) : ResponseCache :=
  { c with cache := [] }

/-! Lemmas about the dict model. -/

theorem dictLookup_replaceKey (k : String) (v : String × Int) :
    ∀ cache : List CacheEntry, hasKey cache k = true →
      dictLookup (replaceKey cache k v) k = some v := by
  intro cache h
  induction cache with
  | nil => simp [hasKey] at h
  | cons e es ih =>
      by_cases he : e.1 = k
      · simp [replaceKey, dictLookup, he]
      · rw [hasKey, if_neg he] at h
        rw [replaceKey, if_neg he, dictLookup, if_neg he]
        exact ih h

theorem dictLookup_append_new (k : String) (v : String × Int) :
    ∀ cache : List CacheEntry, hasKey cache k = false →
      dictLookup (cache ++ [(k, v)]) k = some v := by
  intro cache h
  induction cache with
  | nil => simp [dictLookup]
  | cons e es ih =>
      rw [hasKey] at h
      by_cases he : e.1 = k
      · rw [if_pos he] at h
        exact absurd h (by simp)
      · rw [if_neg he] at h
        rw [List.cons_append, dictLookup, if_neg he]
        exact ih h

theorem dictLookup_insert (cache : List CacheEntry) (k : String) (v : String × Int) :
    dictLookup (dictInsert cache k v) k = some v := by
  unfold dictInsert
  by_cases h : hasKey cache k = true
  · rw [if_pos h]
    exact dictLookup_replaceKey k v cache h
  · rw [if_neg h]
    exact dictLookup_append_new k v cache (by simpa using h)

/-- C1: after `ResponseCache.set` stores a response at time `t`, a `get` with
the same prompt and model at time `t'` returns that response when the elapsed
time is strictly below `ttl`, and returns `None` while deleting the entry
when the elapsed time is `ttl` or more. -/
theorem cache_set_then_get (c : ResponseCache) (prompt model response : String)
    (t t' : Int) :
    (t' - t < c.ttl →
      (c.set prompt model response t).get prompt model t' =
        (some response, c.set prompt model response t)) ∧
    (c.ttl ≤ t' - t →
      (c.set prompt model response t).get prompt model t' =
        (none, { c.set prompt model response t with
                 cache := dictDel (c.set prompt model response t).cache
                   (hashKey prompt model) })) := by
  have hl : dictLookup (c.set prompt model response t).cache
      (hashKey prompt model) = some (response, t) := by
    simp only [ResponseCache.set]
    exact dictLookup_insert _ _ _
  constructor
  · intro h
    simp only [ResponseCache.get]
    rw [hl]
    exact if_pos h
  · intro h
    simp only [ResponseCache.get]
    rw [hl]
    exact if_neg (not_lt.mpr h)

/-- Closed instance of `cache_set_then_get` at concrete data. -/
theorem cache_set_then_get_witness :
    (ResponseCache.set ⟨2, 10, []⟩ "p" "m" "r" 0).get "p" "m" 5 =
      (some "r", ResponseCache.set ⟨2, 10, []⟩ "p" "m" "r" 0) ∧
    (ResponseCache.set ⟨2, 10, []⟩ "p" "m" "r" 0).get "p" "m" 12 =
      (none, { ResponseCache.set ⟨2, 10, []⟩ "p" "m" "r" 0 with
               cache := dictDel (ResponseCache.set ⟨2, 10, []⟩ "p" "m" "r" 0).cache
                 (hashKey "p" "m") }) :=
  ⟨(cache_set_then_get ⟨2, 10, []⟩ "p" "m" "r" 0 5).1 (by decide),
   (cache_set_then_get ⟨2, 10, []⟩ "p" "m" "r" 0 12).2 (by decide)⟩

/-- C8: a cache hit (present and unexpired key) returns the stored response
and leaves the whole cache state unchanged — in particular no timestamp is
refreshed — so any later `set` behaves exactly as it would have without the
read. -/
theorem cache_get_hit_frame (c : ResponseCache) (prompt model : String)
    (now : Int) (r : String) (ts : Int)
    (hl : dictLookup c.cache (hashKey prompt model) = some (r, ts))
    (hfresh : now - ts < c.ttl) :
    c.get prompt model now = (some r, c) ∧
    ∀ p' m' r' t',
      ((c.get prompt model now).2).set p' m' r' t' = c.set p' m' r' t' := by
  have h1 : c.get prompt model now = (some r, c) := by
    simp only [ResponseCache.get]
    rw [hl]
    exact if_pos hfresh
  exact ⟨h1, fun p' m' r' t' => by rw [h1]⟩

/-- Closed instance of `cache_get_hit_frame` at concrete data. -/
theorem cache_get_hit_frame_witness :
    ResponseCache.get ⟨100, 10, [("m:p", "r", 3)]⟩ "p" "m" 5 =
      (some "r", (⟨100, 10, [("m:p", "r", 3)]⟩ : ResponseCache)) :=
  (cache_get_hit_frame ⟨100, 10, [("m:p", "r", 3)]⟩ "p" "m" 5 "r" 3
    (by decide) (by decide)).1

/-- Keys of the dict, in insertion order. -/
def cacheKeys (cache : List CacheEntry) : List String :=
  cache.map (fun e => e.1)

theorem hasKey_iff_mem (k : String) :
    ∀ cache : List CacheEntry, hasKey cache k = true ↔ k ∈ cacheKeys cache := by
  intro cache
  induction cache with
  | nil => simp [hasKey, cacheKeys]
  | cons e es ih =>
      by_cases he : e.1 = k
      · simp [hasKey, cacheKeys, he]
      · rw [hasKey, if_neg he]
        simp only [cacheKeys, List.map_cons, List.mem_cons]
        rw [ih]
        constructor
        · intro h; exact Or.inr h
        · intro h
          rcases h with h | h
          · exact absurd h.symm he
          · exact h

theorem dictDel_of_not_hasKey (k : String) :
    ∀ cache : List CacheEntry, hasKey cache k = false → dictDel cache k = cache := by
  intro cache h
  induction cache with
  | nil => rfl
  | cons e es ih =>
      rw [hasKey] at h
      by_cases he : e.1 = k
      · rw [if_pos he] at h
        exact absurd h (by simp)
      · rw [if_neg he] at h
        rw [dictDel, if_neg he, ih h]

theorem dictDel_length_le (k : String) :
    ∀ cache : List CacheEntry, (dictDel cache k).length ≤ cache.length := by
  intro cache
  induction cache with
  | nil => exact Nat.le_refl _
  | cons e es ih =>
      rw [dictDel]
      by_cases he : e.1 = k
      · rw [if_pos he]
        exact Nat.le_succ_of_le ih
      · rw [if_neg he]
        exact Nat.succ_le_succ ih

theorem dictDel_length_of_mem (k : String) :
    ∀ cache : List CacheEntry, hasKey cache k = true →
      (cacheKeys cache).Nodup → (dictDel cache k).length + 1 = cache.length := by
  intro cache h hnd
  induction cache with
  | nil => simp [hasKey] at h
  | cons e es ih =>
      rw [cacheKeys, List.map_cons, List.nodup_cons] at hnd
      rw [dictDel]
      by_cases he : e.1 = k
      · rw [if_pos he]
        have hnk : hasKey es k = false := by
          cases hb : hasKey es k with
          | false => rfl
          | true =>
              exact absurd (he ▸ (hasKey_iff_mem k es).mp hb) hnd.1
        rw [dictDel_of_not_hasKey k es hnk, List.length_cons]
      · rw [if_neg he]
        rw [hasKey, if_neg he] at h
        rw [List.length_cons, List.length_cons, ← ih h hnd.2]

theorem dictDel_sublist (k : String) :
    ∀ cache : List CacheEntry, List.Sublist (dictDel cache k) cache := by
  intro cache
  induction cache with
  | nil => exact List.Sublist.refl _
  | cons e es ih =>
      rw [dictDel]
      by_cases he : e.1 = k
      · rw [if_pos he]
        exact List.Sublist.cons e ih
      · rw [if_neg he]
        exact List.Sublist.cons₂ e ih

theorem cacheKeys_dictDel_nodup (k : String) (cache : List CacheEntry)
    (hnd : (cacheKeys cache).Nodup) : (cacheKeys (dictDel cache k)).Nodup :=
  List.Nodup.sublist (List.Sublist.map _ (dictDel_sublist k cache)) hnd

theorem cacheKeys_replaceKey (k : String) (v : String × Int) :
    ∀ cache : List CacheEntry, cacheKeys (replaceKey cache k v) = cacheKeys cache := by
  intro cache
  induction cache with
  | nil => rfl
  | cons e es ih =>
      rw [replaceKey]
      by_cases he : e.1 = k
      · rw [if_pos he]
        simp only [cacheKeys, List.map_cons] at ih ⊢
        rw [ih, he]
      · rw [if_neg he]
        simp only [cacheKeys, List.map_cons] at ih ⊢
        rw [ih]

theorem replaceKey_length (k : String) (v : String × Int) :
    ∀ cache : List CacheEntry, (replaceKey cache k v).length = cache.length := by
  intro cache
  induction cache with
  | nil => rfl
  | cons e es ih =>
      rw [replaceKey]
      by_cases he : e.1 = k
      · rw [if_pos he, List.length_cons, List.length_cons, ih]
      · rw [if_neg he, List.length_cons, List.length_cons, ih]

theorem dictInsert_length_le (cache : List CacheEntry) (k : String)
    (v : String × Int) : (dictInsert cache k v).length ≤ cache.length + 1 := by
  unfold dictInsert
  by_cases h : hasKey cache k = true
  · rw [if_pos h, replaceKey_length]
    exact Nat.le_succ _
  · rw [if_neg h, List.length_append, List.length_singleton]

theorem dictInsert_nodup (cache : List CacheEntry) (k : String) (v : String × Int)
    (hnd : (cacheKeys cache).Nodup) : (cacheKeys (dictInsert cache k v)).Nodup := by
  unfold dictInsert
  by_cases h : hasKey cache k = true
  · rw [if_pos h, cacheKeys_replaceKey]
    exact hnd
  · rw [if_neg h]
    have hk : k ∉ cacheKeys cache := by
      intro hmem
      exact absurd ((hasKey_iff_mem k cache).mpr hmem) h
    have : cacheKeys (cache ++ [(k, v)]) = cacheKeys cache ++ [k] := by
      simp [cacheKeys]
    rw [this, List.nodup_append]
    exact ⟨hnd, List.nodup_singleton k, by
      intro a ha hb
      rw [List.mem_singleton] at hb
      exact hk (hb ▸ ha)⟩

theorem foldl_oldest_mem (es : List CacheEntry) : ∀ e : CacheEntry,
    es.foldl (fun best x => if x.2.2 < best.2.2 then x else best) e ∈ e :: es := by
  induction es with
  | nil => intro e; simp
  | cons x xs ih =>
      intro e
      rw [List.foldl_cons]
      by_cases hc : x.2.2 < e.2.2
      · rw [if_pos hc]
        rcases List.mem_cons.mp (ih x) with h | h
        · rw [h]
          exact List.mem_cons.mpr (Or.inr (List.mem_cons_self _ _))
        · exact List.mem_cons.mpr (Or.inr (List.mem_cons.mpr (Or.inr h)))
      · rw [if_neg hc]
        rcases List.mem_cons.mp (ih e) with h | h
        · rw [h]
          exact List.mem_cons_self _ _
        · exact List.mem_cons.mpr (Or.inr (List.mem_cons.mpr (Or.inr h)))

theorem foldl_oldest_le (es : List CacheEntry) : ∀ e : CacheEntry,
    (es.foldl (fun best x => if x.2.2 < best.2.2 then x else best) e).2.2 ≤ e.2.2 ∧
    ∀ x ∈ es,
      (es.foldl (fun best x => if x.2.2 < best.2.2 then x else best) e).2.2 ≤ x.2.2 := by
  induction es with
  | nil => intro e; exact ⟨le_refl _, by simp⟩
  | cons x xs ih =>
      intro e
      rw [List.foldl_cons]
      obtain ⟨h1, h2⟩ := ih (if x.2.2 < e.2.2 then x else e)
      have he' : (if x.2.2 < e.2.2 then x else e).2.2 ≤ e.2.2 := by
        by_cases hc : x.2.2 < e.2.2
        · rw [if_pos hc]; exact le_of_lt hc
        · rw [if_neg hc]
      have hx' : (if x.2.2 < e.2.2 then x else e).2.2 ≤ x.2.2 := by
        by_cases hc : x.2.2 < e.2.2
        · rw [if_pos hc]
        · rw [if_neg hc]; exact not_lt.mp hc
      refine ⟨h1.trans he', fun y hy => ?_⟩
      rcases List.mem_cons.mp hy with h | h
      · exact h ▸ h1.trans hx'
      · exact h2 y h

theorem oldestKey_spec (cache : List CacheEntry) (hne : cache ≠ []) :
    ∃ e, e ∈ cache ∧ oldestKey cache = some e.1 ∧ ∀ x ∈ cache, e.2.2 ≤ x.2.2 := by
  match cache with
  | [] => exact absurd rfl hne
  | e :: es =>
      obtain ⟨h1, h2⟩ := foldl_oldest_le es e
      refine ⟨es.foldl (fun best x => if x.2.2 < best.2.2 then x else best) e,
        foldl_oldest_mem es e, ?_, fun x hx => ?_⟩
      · rfl
      · rcases List.mem_cons.mp hx with h | h
        · exact h ▸ h1
        · exact h2 x h

theorem hasKey_of_mem (cache : List CacheEntry) (e : CacheEntry) (h : e ∈ cache) :
    hasKey cache e.1 = true :=
  (hasKey_iff_mem e.1 cache).mpr (List.mem_map_of_mem _ h)

theorem get_snd_cases (c : ResponseCache) (p m : String) (now : Int) :
    (c.get p m now).2 = c ∨
    (c.get p m now).2 = { c with cache := dictDel c.cache (hashKey p m) } := by
  simp only [ResponseCache.get]
  cases dictLookup c.cache (hashKey p m) with
  | none => exact Or.inl rfl
  | some v =>
      obtain ⟨resp, ts⟩ := v
      by_cases hf : now - ts < c.ttl
      · left
        show (if now - ts < c.ttl then ((some resp : Option String), c)
            else (none, { c with cache := dictDel c.cache (hashKey p m) })).2 = c
        rw [if_pos hf]
      · right
        show (if now - ts < c.ttl then ((some resp : Option String), c)
            else (none, { c with cache := dictDel c.cache (hashKey p m) })).2 =
          { c with cache := dictDel c.cache (hashKey p m) }
        rw [if_neg hf]

/-- C4: with `max_size ≥ 1` and distinct keys, the size bound
`|cache| ≤ max_size` is preserved by `get`, `set` and `clear`, and a `set`
on a full cache first deletes exactly one entry, one whose stored timestamp
is minimal, before inserting. -/
theorem cache_size_invariant (c : ResponseCache) (p m r : String) (now t : Int)
    (hm : 1 ≤ c.max_size) (hnd : (cacheKeys c.cache).Nodup)
    (hlen : c.cache.length ≤ c.max_size) :
    ((c.get p m now).2.cache.length ≤ c.max_size ∧
      (cacheKeys (c.get p m now).2.cache).Nodup) ∧
    ((c.set p m r t).cache.length ≤ c.max_size ∧
      (cacheKeys (c.set p m r t).cache).Nodup) ∧
    c.clear.cache.length ≤ c.max_size ∧
    (c.cache.length = c.max_size →
      ∃ e, e ∈ c.cache ∧ (∀ x ∈ c.cache, e.2.2 ≤ x.2.2) ∧
        (c.set p m r t).cache = dictInsert (dictDel c.cache e.1) (hashKey p m) (r, t) ∧
        (dictDel c.cache e.1).length + 1 = c.cache.length) := by
  have hsetfull : ∀ k0, oldestKey c.cache = some k0 → c.max_size ≤ c.cache.length →
      (c.set p m r t).cache = dictInsert (dictDel c.cache k0) (hashKey p m) (r, t) := by
    intro k0 hok hfull
    show dictInsert
        (if c.max_size ≤ c.cache.length then
          match oldestKey c.cache with
          | some k1 => dictDel c.cache k1
          | none => c.cache
        else c.cache) (hashKey p m) (r, t) = _
    rw [if_pos hfull, hok]
  have hsetnot : ¬ c.max_size ≤ c.cache.length →
      (c.set p m r t).cache = dictInsert c.cache (hashKey p m) (r, t) := by
    intro hfull
    show dictInsert
        (if c.max_size ≤ c.cache.length then
          match oldestKey c.cache with
          | some k1 => dictDel c.cache k1
          | none => c.cache
        else c.cache) (hashKey p m) (r, t) = _
    rw [if_neg hfull]
  have hfullcase : c.max_size ≤ c.cache.length →
      ∃ e, e ∈ c.cache ∧ (∀ x ∈ c.cache, e.2.2 ≤ x.2.2) ∧
        (c.set p m r t).cache = dictInsert (dictDel c.cache e.1) (hashKey p m) (r, t) ∧
        (dictDel c.cache e.1).length + 1 = c.cache.length := by
    intro hfull
    have hne : c.cache ≠ [] := by
      intro hnil
      rw [hnil] at hfull
      simp at hfull
      omega
    obtain ⟨e, hmem, hok, hmin⟩ := oldestKey_spec c.cache hne
    exact ⟨e, hmem, hmin, hsetfull e.1 hok hfull,
      dictDel_length_of_mem e.1 c.cache (hasKey_of_mem c.cache e hmem) hnd⟩
  refine ⟨?_, ?_, ?_, fun hfull => hfullcase (le_of_eq hfull.symm)⟩
  · rcases get_snd_cases c p m now with h | h
    · rw [h]
      exact ⟨hlen, hnd⟩
    · rw [h]
      exact ⟨(dictDel_length_le _ _).trans hlen, cacheKeys_dictDel_nodup _ _ hnd⟩
  · by_cases hfull : c.max_size ≤ c.cache.length
    · obtain ⟨e, hmem, hmin, hcache, hdellen⟩ := hfullcase hfull
      rw [hcache]
      constructor
      · calc (dictInsert (dictDel c.cache e.1) (hashKey p m) (r, t)).length
            ≤ (dictDel c.cache e.1).length + 1 := dictInsert_length_le _ _ _
          _ = c.cache.length := hdellen
          _ ≤ c.max_size := hlen
      · exact dictInsert_nodup _ _ _ (cacheKeys_dictDel_nodup _ _ hnd)
    · rw [hsetnot hfull]
      constructor
      · calc (dictInsert c.cache (hashKey p m) (r, t)).length
            ≤ c.cache.length + 1 := dictInsert_length_le _ _ _
          _ ≤ c.max_size := Nat.succ_le_of_lt (not_le.mp hfull)
      · exact dictInsert_nodup _ _ _ hnd
  · exact Nat.zero_le _

/-- Closed instance of `cache_size_invariant`: a full two-entry cache stays
at two entries after a `set`, with the oldest-timestamp entry evicted. -/
theorem cache_size_invariant_witness :
    (ResponseCache.set ⟨2, 10, [("a", "x", 5), ("b", "y", 1)]⟩ "p" "m" "r" 7).cache.length ≤ 2 :=
  ((cache_size_invariant ⟨2, 10, [("a", "x", 5), ("b", "y", 1)]⟩ "p" "m" "r" 7 7
    (by decide) (by decide) (by decide)).2.1).1

/-! Embedding of `retry_with_backoff` (AIProjectBrigade_Enhanced.py). -/

/-- One invocation of the wrapped function either returns a value or raises
an exception. -/
inductive Outcome (α ε : Type) where
  | ok (v : α)
  | err (e : ε)

/-- Observable behaviour of the wrapper: the final result (`Except.error`
models `raise`, carrying `last_exception : Option ε`), the number of
invocations of the wrapped function, and the `time.sleep` durations in
order. -/
structure RetryTrace (α ε : Type) where
  result : Except (Option ε) α
  calls : Nat
  sleeps : List ℚ

/-- The loop `for attempt in range(max_retries)` of `retry_with_backoff`:
`attempt` is the absolute attempt index, `remaining` the number of loop
iterations left, `last` the current `last_exception`. On a failure that is
not the last attempt (`attempt < max_retries - 1`) the wrapper sleeps
`base_delay * 2 ** attempt`. Exhausting the loop executes
`raise last_exception`. -/
def retryGo (outcomes : Nat → Outcome α ε) (max_retries : Nat) (base_delay : ℚ) :
    Nat → Nat → Option ε → RetryTrace α ε
  | _, 0, last => ⟨Except.error last, 0, []⟩
  | attempt, remaining + 1, _ =>
      match outcomes attempt with
      | Outcome.ok v => ⟨Except.ok v, 1, []⟩
      | Outcome.err e =>
          let sl : List ℚ :=
            if attempt < max_retries - 1 then [base_delay * 2 ^ attempt] else []
          let rest := retryGo outcomes max_retries base_delay (attempt + 1) remaining (some e)
          ⟨rest.result, rest.calls + 1, sl ++ rest.sleeps⟩

/-- `retry_with_backoff(max_retries, base_delay)` applied to a function whose
invocation outcomes are `outcomes`; `max_retries` is an arbitrary Python int
(`range` of a non-positive int is empty). -/
def retry_with_backoff (max_retries : Int) (base_delay : ℚ)
    (outcomes : Nat → Outcome α ε) : RetryTrace α ε :=
  retryGo outcomes max_retries.toNat base_delay 0 max_retries.toNat none

theorem retryGo_calls_le (outcomes : Nat → Outcome α ε) (m : Nat) (b : ℚ) :
    ∀ remaining attempt last,
      (retryGo outcomes m b attempt remaining last).calls ≤ remaining := by
  intro remaining
  induction remaining with
  | zero => intro attempt last; exact Nat.le_refl 0
  | succ n ih =>
      intro attempt last
      rw [retryGo]
      cases outcomes attempt with
      | ok v => exact Nat.succ_le_succ (Nat.zero_le n)
      | err e => exact Nat.succ_le_succ (ih (attempt + 1) (some e))

theorem retryGo_ok_step (outcomes : Nat → Outcome α ε) (m : Nat) (b : ℚ)
    (attempt n : Nat) (last : Option ε) (v : α)
    (hok : outcomes attempt = Outcome.ok v) :
    retryGo outcomes m b attempt (n + 1) last = ⟨Except.ok v, 1, []⟩ := by
  rw [retryGo, hok]

theorem retryGo_err_step (outcomes : Nat → Outcome α ε) (m : Nat) (b : ℚ)
    (attempt n : Nat) (last : Option ε) (e : ε)
    (he : outcomes attempt = Outcome.err e) :
    retryGo outcomes m b attempt (n + 1) last =
      ⟨(retryGo outcomes m b (attempt + 1) n (some e)).result,
       (retryGo outcomes m b (attempt + 1) n (some e)).calls + 1,
       (if attempt < m - 1 then [b * 2 ^ attempt] else []) ++
         (retryGo outcomes m b (attempt + 1) n (some e)).sleeps⟩ := by
  rw [retryGo, he]

theorem retryGo_success (outcomes : Nat → Outcome α ε) (m : Nat) (b : ℚ) :
    ∀ k remaining attempt last v, k < remaining → attempt + remaining = m →
      (∀ j, j < k → ∃ e, outcomes (attempt + j) = Outcome.err e) →
      outcomes (attempt + k) = Outcome.ok v →
      retryGo outcomes m b attempt remaining last =
        ⟨Except.ok v, k + 1, (List.range k).map (fun i => b * 2 ^ (attempt + i))⟩ := by
  intro k
  induction k with
  | zero =>
      intro remaining attempt last v hk hm hfail hok
      match remaining, hk with
      | n + 1, _ =>
          rw [Nat.add_zero] at hok
          rw [retryGo_ok_step outcomes m b attempt n last v hok]
          simp
  | succ k ih =>
      intro remaining attempt last v hk hm hfail hok
      match remaining, hk with
      | n + 1, hk =>
          obtain ⟨e, he⟩ := hfail 0 (Nat.succ_pos k)
          rw [Nat.add_zero] at he
          rw [retryGo_err_step outcomes m b attempt n last e he]
          have hrec := ih n (attempt + 1) (some e) v
            (Nat.lt_of_succ_lt_succ hk)
            (by omega)
            (fun j hj => by
              obtain ⟨e', he'⟩ := hfail (j + 1) (Nat.succ_lt_succ hj)
              exact ⟨e', by rw [show attempt + 1 + j = attempt + (j + 1) by omega]; exact he'⟩)
            (by rw [show attempt + 1 + k = attempt + (k + 1) by omega]; exact hok)
          rw [hrec]
          have hsl : attempt < m - 1 := by omega
          rw [if_pos hsl]
          refine congrArg (RetryTrace.mk (Except.ok v) (k + 1 + 1)) ?_
          rw [List.range_succ_eq_map, List.map_cons, List.map_map]
          rw [Nat.add_zero]
          refine congrArg (List.cons (b * 2 ^ attempt)) ?_
          refine List.map_congr_left ?_
          intro i _
          show b * 2 ^ (attempt + 1 + i) = b * 2 ^ (attempt + (i + 1))
          rw [show attempt + 1 + i = attempt + (i + 1) by omega]

theorem retryGo_all_fail (outcomes : Nat → Outcome α ε) (m : Nat) (b : ℚ) :
    ∀ remaining attempt last, 1 ≤ remaining → attempt + remaining = m →
      (∀ j, j < remaining → ∃ e, outcomes (attempt + j) = Outcome.err e) →
      ∀ eLast, outcomes (m - 1) = Outcome.err eLast →
      retryGo outcomes m b attempt remaining last =
        ⟨Except.error (some eLast), remaining,
         (List.range (remaining - 1)).map (fun i => b * 2 ^ (attempt + i))⟩ := by
  intro remaining
  induction remaining with
  | zero => intro attempt last h1; omega
  | succ n ih =>
      intro attempt last _ hm hfail eLast hlast
      obtain ⟨e, he⟩ := hfail 0 (Nat.succ_pos n)
      rw [Nat.add_zero] at he
      rw [retryGo_err_step outcomes m b attempt n last e he]
      cases n with
      | zero =>
          have hatt : attempt = m - 1 := by omega
          have hee : e = eLast := by
            rw [hatt] at he
            rw [he] at hlast
            injection hlast
          rw [retryGo]
          have hns : ¬ attempt < m - 1 := by omega
          rw [if_neg hns, hee]
          simp
      | succ n' =>
          have hrec := ih (attempt + 1) (some e)
            (Nat.succ_le_succ (Nat.zero_le n'))
            (by omega)
            (fun j hj => by
              obtain ⟨e', he'⟩ := hfail (j + 1) (Nat.succ_lt_succ hj)
              exact ⟨e', by rw [show attempt + 1 + j = attempt + (j + 1) by omega]; exact he'⟩)
            eLast hlast
          rw [hrec]
          have hsl : attempt < m - 1 := by omega
          rw [if_pos hsl]
          refine congrArg (RetryTrace.mk (Except.error (some eLast)) (n' + 1 + 1)) ?_
          show b * 2 ^ attempt :: (List.range n').map (fun i => b * 2 ^ (attempt + 1 + i)) =
            (List.range (n' + 1)).map (fun i => b * 2 ^ (attempt + i))
          rw [List.range_succ_eq_map, List.map_cons, List.map_map]
          rw [Nat.add_zero]
          refine congrArg (List.cons (b * 2 ^ attempt)) ?_
          refine List.map_congr_left ?_
          intro i _
          show b * 2 ^ (attempt + 1 + i) = b * 2 ^ (attempt + (i + 1))
          rw [show attempt + 1 + i = attempt + (i + 1) by omega]

theorem retryGo_result_some (outcomes : Nat → Outcome α ε) (m : Nat) (b : ℚ) :
    ∀ remaining attempt e,
      (retryGo outcomes m b attempt remaining (some e)).result ≠
        Except.error none := by
  intro remaining
  induction remaining with
  | zero =>
      intro attempt e h
      rw [retryGo] at h
      injection h with h'
      exact Option.noConfusion h'
  | succ n ih =>
      intro attempt e h
      cases hout : outcomes attempt with
      | ok v =>
          rw [retryGo_ok_step outcomes m b attempt n (some e) v hout] at h
          exact Except.noConfusion h
      | err e' =>
          rw [retryGo_err_step outcomes m b attempt n (some e) e' hout] at h
          exact ih (attempt + 1) e' h

/-- C3: for `max_retries ≥ 1`, the wrapper invokes the wrapped function at
most `max_retries` times; if the first normal return happens at attempt `k`
the loop ends there with that value after `k + 1` invocations, having slept
`base_delay * 2 ^ i` after each failed attempt `i < k`; and if all
`max_retries` invocations raise, the wrapper re-raises the exception of the
final invocation after sleeping after each non-final failed attempt. -/
theorem retry_with_backoff_spec (max_retries : Int) (base_delay : ℚ)
    (outcomes : Nat → Outcome α ε) (hm : 1 ≤ max_retries) :
    ((retry_with_backoff max_retries base_delay outcomes).calls ≤
      max_retries.toNat) ∧
    (∀ k v, k < max_retries.toNat →
      (∀ j, j < k → ∃ e, outcomes j = Outcome.err e) →
      outcomes k = Outcome.ok v →
      retry_with_backoff max_retries base_delay outcomes =
        ⟨Except.ok v, k + 1,
         (List.range k).map (fun i => base_delay * 2 ^ i)⟩) ∧
    ((∀ j, j < max_retries.toNat → ∃ e, outcomes j = Outcome.err e) →
      ∀ eLast, outcomes (max_retries.toNat - 1) = Outcome.err eLast →
      retry_with_backoff max_retries base_delay outcomes =
        ⟨Except.error (some eLast), max_retries.toNat,
         (List.range (max_retries.toNat - 1)).map
           (fun i => base_delay * 2 ^ i)⟩) := by
  refine ⟨retryGo_calls_le _ _ _ _ _ _, ?_, ?_⟩
  · intro k v hk hfail hok
    have h := retryGo_success outcomes max_retries.toNat base_delay k
      max_retries.toNat 0 none v hk (Nat.zero_add _)
      (fun j hj => by rw [Nat.zero_add]; exact hfail j hj)
      (by rw [Nat.zero_add]; exact hok)
    rw [retry_with_backoff, h]
    simp
  · intro hfail eLast hlast
    have h := retryGo_all_fail outcomes max_retries.toNat base_delay
      max_retries.toNat 0 none (by omega) (Nat.zero_add _)
      (fun j hj => by rw [Nat.zero_add]; exact hfail j hj)
      eLast hlast
    rw [retry_with_backoff, h]
    simp

/-- Closed instance of `retry_with_backoff_spec`: three allowed retries, a
failure at attempt 0 and a success at attempt 1 give two calls and one sleep
of `2 * 2 ^ 0` seconds. -/
theorem retry_with_backoff_spec_witness :
    retry_with_backoff 3 2
      (fun j => if j = 0 then Outcome.err (0 : Nat) else Outcome.ok (42 : Nat)) =
      ⟨Except.ok 42, 2, [(2 : ℚ)]⟩ := by
  have h := (retry_with_backoff_spec 3 2
      (fun j => if j = 0 then Outcome.err (0 : Nat) else Outcome.ok (42 : Nat))
      (by norm_num)).2.1 1 42 (by norm_num)
      (fun j hj => ⟨0, by rw [Nat.lt_one_iff.mp hj]; rfl⟩)
      rfl
  rw [h]
  norm_num [List.range_succ]

/-- C10: instantiated with `max_retries ≤ 0` the wrapper performs zero
invocations and immediately executes `raise last_exception` with
`last_exception` still `None`; with `max_retries ≥ 1` that `None`-raise
branch is unreachable. -/
theorem retry_with_backoff_nonpos (max_retries : Int) (base_delay : ℚ)
    (outcomes : Nat → Outcome α ε) :
    (max_retries ≤ 0 →
      retry_with_backoff max_retries base_delay outcomes =
        ⟨Except.error none, 0, []⟩) ∧
    (1 ≤ max_retries →
      (retry_with_backoff max_retries base_delay outcomes).result ≠
        Except.error none) := by
  constructor
  · intro h
    have h0 : max_retries.toNat = 0 := by omega
    rw [retry_with_backoff, h0]
    rfl
  · intro hm h
    obtain ⟨n, hn⟩ : ∃ n, max_retries.toNat = n + 1 :=
      ⟨max_retries.toNat - 1, by omega⟩
    rw [retry_with_backoff, hn] at h
    cases hout : outcomes 0 with
    | ok v =>
        rw [retryGo_ok_step outcomes (n + 1) base_delay 0 n none v hout] at h
        exact Except.noConfusion h
    | err e =>
        rw [retryGo_err_step outcomes (n + 1) base_delay 0 n none e hout] at h
        exact retryGo_result_some outcomes (n + 1) base_delay n 1 e h

/-- Closed instance of `retry_with_backoff_nonpos`. -/
theorem retry_with_backoff_nonpos_witness :
    retry_with_backoff (-2) 1 (fun _ => Outcome.ok (0 : Nat)) =
      (⟨Except.error none, 0, []⟩ : RetryTrace Nat Nat) ∧
    (retry_with_backoff 1 1 (fun _ => Outcome.ok (0 : Nat))).result ≠
      (Except.error none : Except (Option Nat) Nat) :=
  ⟨(retry_with_backoff_nonpos (-2) 1 _).1 (by norm_num),
   (retry_with_backoff_nonpos 1 1 _).2 (by norm_num)⟩

/-! Embedding of `ValidationReport` (validation.py). -/

/-- `CheckStatus` enum. -/
inductive CheckStatus where
  | PASSED
  | FAILED
  | WARNING
  | SKIPPED
deriving DecidableEq

/-- `CheckCategory` enum. -/
inductive CheckCategory where
  | STRUCTURE
  | CODE
  | DOCUMENTATION
  | CONFIGURATION
  | SECURITY
  | DEVOPS
deriving DecidableEq

/-- `ValidationResult` dataclass (the `details`/`severity` defaults carried
along verbatim). -/
structure ValidationResult where
  name : String
  status : CheckStatus
  category : CheckCategory
  message : String
  details : Option String := none
  severity : String := "error"

/-- `ValidationReport` dataclass. -/
structure ValidationReport where
  project_dir : String
  results : List ValidationResult := []
  passed : Nat := 0
  failed : Nat := 0
  warnings : Nat := 0
  skipped : Nat := 0

/-- `ValidationReport.add_result`: appends the result and bumps the counter
selected by the `if/elif/elif/else` chain on its status. -/
def ValidationReport.add_result (r : ValidationReport) (res : ValidationResult) :
    ValidationReport :=
  let r := { r with results := r.results ++ [res] }
  if res.status = CheckStatus.PASSED then { r with passed := r.passed + 1 }
  else if res.status = CheckStatus.FAILED then { r with failed := r.failed + 1 }
  else if res.status = CheckStatus.WARNING then { r with warnings := r.warnings + 1 }
  else { r with skipped := r.skipped + 1 }

/-- `ValidationReport.score`: `passed / (passed + failed + warnings) * 100`,
or `100.0` when that total is zero (Python floats modelled as rationals). -/
def ValidationReport.score (r : ValidationReport) : ℚ :=
  let total := r.passed + r.failed + r.warnings
  if total = 0 then 100 else ((r.passed : ℚ) / (total : ℚ)) * 100

/-- `ValidationReport.success`. -/
def ValidationReport.success (r : ValidationReport) : Bool :=
  r.failed = 0

/-- C6: the score is `passed / (passed + failed + warnings) * 100` when the
denominator is positive and `100` when it is zero; it always lies in
`[0, 100]`; and the `skipped` counter has no effect on it. -/
theorem validation_score_spec (r : ValidationReport) :
    (0 < r.passed + r.failed + r.warnings →
      r.score = ((r.passed : ℚ) / ((r.passed + r.failed + r.warnings : Nat) : ℚ)) * 100) ∧
    (r.passed + r.failed + r.warnings = 0 → r.score = 100) ∧
    0 ≤ r.score ∧ r.score ≤ 100 ∧
    (∀ n, ValidationReport.score { r with skipped := n } = r.score) := by
  have hb : 0 ≤ r.score ∧ r.score ≤ 100 := by
    unfold ValidationReport.score
    by_cases h : r.passed + r.failed + r.warnings = 0
    · rw [if_pos h]
      norm_num
    · rw [if_neg h]
      have hpos : (0 : ℚ) < ((r.passed + r.failed + r.warnings : Nat) : ℚ) := by
        have : 0 < r.passed + r.failed + r.warnings := Nat.pos_of_ne_zero h
        exact_mod_cast this
      constructor
      · positivity
      · have hle : ((r.passed : Nat) : ℚ) ≤ ((r.passed + r.failed + r.warnings : Nat) : ℚ) := by
          have hn : r.passed ≤ r.passed + r.failed + r.warnings := by omega
          exact_mod_cast hn
        have hdiv : ((r.passed : Nat) : ℚ) / ((r.passed + r.failed + r.warnings : Nat) : ℚ) ≤ 1 :=
          (div_le_one hpos).mpr hle
        calc ((r.passed : Nat) : ℚ) / ((r.passed + r.failed + r.warnings : Nat) : ℚ) * 100
            ≤ 1 * 100 := by
              exact mul_le_mul_of_nonneg_right hdiv (by norm_num)
          _ = 100 := by norm_num
  refine ⟨fun h => ?_, fun h => ?_, hb.1, hb.2, fun n => rfl⟩
  · unfold ValidationReport.score
    rw [if_neg (by omega : ¬ r.passed + r.failed + r.warnings = 0)]
  · unfold ValidationReport.score
    rw [if_pos h]

/-- Closed instance of `validation_score_spec`: 3 passed, 1 warning gives
score 75. -/
theorem validation_score_spec_witness :
    ValidationReport.score ⟨"d", [], 3, 0, 1, 0⟩ = 75 := by
  have h := (validation_score_spec ⟨"d", [], 3, 0, 1, 0⟩).1 (by norm_num)
  rw [h]
  norm_num

/-- Number of stored results with the given status. -/
def countStatus (rs : List ValidationResult) (s : CheckStatus) : Nat :=
  (rs.filter (fun x => x.status = s)).length

/-- The counters of a report agree with its stored results. -/
def reportConsistent (r : ValidationReport) : Prop :=
  r.passed = countStatus r.results CheckStatus.PASSED ∧
  r.failed = countStatus r.results CheckStatus.FAILED ∧
  r.warnings = countStatus r.results CheckStatus.WARNING ∧
  r.skipped = countStatus r.results CheckStatus.SKIPPED ∧
  r.passed + r.failed + r.warnings + r.skipped = r.results.length

theorem countStatus_append (rs : List ValidationResult) (res : ValidationResult)
    (s : CheckStatus) :
    countStatus (rs ++ [res]) s =
      countStatus rs s + (if res.status = s then 1 else 0) := by
  unfold countStatus
  rw [List.filter_append]
  by_cases h : res.status = s
  · simp [h]
  · simp [h]

theorem add_result_preserves (r : ValidationReport) (res : ValidationResult)
    (hc : reportConsistent r) : reportConsistent (r.add_result res) := by
  obtain ⟨h1, h2, h3, h4, h5⟩ := hc
  cases hs : res.status with
  | PASSED =>
      refine ⟨?_, ?_, ?_, ?_, ?_⟩ <;>
        simp [ValidationReport.add_result, countStatus_append, hs, h1, h2, h3, h4] <;>
        omega
  | FAILED =>
      refine ⟨?_, ?_, ?_, ?_, ?_⟩ <;>
        simp [ValidationReport.add_result, countStatus_append, hs, h1, h2, h3, h4] <;>
        omega
  | WARNING =>
      refine ⟨?_, ?_, ?_, ?_, ?_⟩ <;>
        simp [ValidationReport.add_result, countStatus_append, hs, h1, h2, h3, h4] <;>
        omega
  | SKIPPED =>
      refine ⟨?_, ?_, ?_, ?_, ?_⟩ <;>
        simp [ValidationReport.add_result, countStatus_append, hs, h1, h2, h3, h4] <;>
        omega

theorem foldl_add_result_consistent (rs : List ValidationResult) :
    ∀ r, reportConsistent r →
      reportConsistent (rs.foldl ValidationReport.add_result r) := by
  induction rs with
  | nil => intro r h; exact h
  | cons x xs ih =>
      intro r h
      exact ih _ (add_result_preserves r x h)

/-- C9: starting from a fresh report, any sequence of `add_result` calls
keeps `passed + failed + warnings + skipped` equal to the number of stored
results, with each counter counting its own status; the `skipped` counter
counts exactly the results whose status is none of PASSED, FAILED,
WARNING. -/
theorem validation_counters_invariant (dir : String) (rs : List ValidationResult) :
    reportConsistent (rs.foldl ValidationReport.add_result
      ⟨dir, [], 0, 0, 0, 0⟩) ∧
    ∀ l : List ValidationResult, countStatus l CheckStatus.SKIPPED =
      (l.filter (fun x => ¬(x.status = CheckStatus.PASSED ∨
        x.status = CheckStatus.FAILED ∨ x.status = CheckStatus.WARNING))).length := by
  constructor
  · exact foldl_add_result_consistent rs _ ⟨rfl, rfl, rfl, rfl, rfl⟩
  · intro l
    unfold countStatus
    refine congrArg List.length (List.filter_congr ?_)
    intro a _
    cases a.status <;> rfl

/-! Embedding of `ProfileManager.suggest_profile` (profiles.py). -/

/-- Python `str.lower()` (ASCII behaviour, which covers the table's
keywords), working on the underlying character list. -/
def pyLower (s : String) : String :=
  String.mk (s.data.map Char.toLower)

/-- Python substring membership `needle in haystack` on character lists. -/
def containsSub (needle : List Char) : List Char → Bool
  | [] => needle.isEmpty
  | c :: cs => needle.isPrefixOf (c :: cs) || containsSub needle cs

/-- Python `needle in haystack` for strings. -/
def occursIn (needle haystack : String) : Bool :=
  containsSub needle.data haystack.data

/-- The `keyword_map` table of `suggest_profile`, in source order. -/
def keyword_map : List (String × List String) :=
  [("ml_project", ["machine learning", "ml", "ai model", "training",
      "prediction", "neural", "deep learning"]),
   ("web_app", ["website", "web app", "dashboard", "portal", "saas",
      "frontend", "react", "vue"]),
   ("mobile_app", ["mobile", "ios", "android", "react native", "flutter",
      "app store"]),
   ("cli_tool", ["cli", "command line", "terminal", "script",
      "automation tool"]),
   ("microservices", ["microservice", "distributed", "kubernetes", "k8s",
      "multiple services"]),
   ("api_backend", ["api", "rest", "backend only", "server", "endpoint"]),
   ("data_pipeline", ["etl", "pipeline", "data processing", "airflow",
      "orchestration"]),
   ("iot_project", ["iot", "sensor", "device", "embedded", "mqtt",
      "hardware"]),
   ("chrome_extension", ["chrome extension", "firefox addon",
      "browser plugin", "manifest.json"]),
   ("desktop_app", ["desktop", "gui", "windows app", "mac app", "tkinter",
      "qt", "pyqt", "electron"])]

/-- Number of the profile's keywords occurring in the (lowercased)
description; each keyword counts at most once. -/
def profileScore (d : String) (keywords : List String) : Nat :=
  (keywords.filter (fun kw => occursIn kw d)).length

/-- `max(scores, key=scores.get)`: the first profile (in table order) with
maximal score; Python `max` keeps the earlier element on ties. -/
def bestProfile (scored : List (String × Nat)) : String × Nat :=
  match scored with
  | [] => ("web_app", 0)
  | x :: xs => xs.foldl (fun best y => if y.2 > best.2 then y else best) x

/-- `ProfileManager.suggest_profile`: lowercases the description, counts
keyword hits per profile, and returns the best-scoring profile, or
`"web_app"` when no keyword matched at all. -/
def suggest_profile (description : String) : String :=
  let d := pyLower description
  let scores := keyword_map.map (fun pk => (pk.1, profileScore d pk.2))
  let best := bestProfile scores
  if best.2 > 0 then best.1 else "web_app"

theorem foldl_best_mem (xs : List (String × Nat)) : ∀ x : String × Nat,
    xs.foldl (fun best y => if y.2 > best.2 then y else best) x ∈ x :: xs := by
  induction xs with
  | nil => intro x; simp
  | cons y ys ih =>
      intro x
      rw [List.foldl_cons]
      by_cases hc : y.2 > x.2
      · rw [if_pos hc]
        rcases List.mem_cons.mp (ih y) with h | h
        · rw [h]
          exact List.mem_cons.mpr (Or.inr (List.mem_cons_self _ _))
        · exact List.mem_cons.mpr (Or.inr (List.mem_cons.mpr (Or.inr h)))
      · rw [if_neg hc]
        rcases List.mem_cons.mp (ih x) with h | h
        · rw [h]
          exact List.mem_cons_self _ _
        · exact List.mem_cons.mpr (Or.inr (List.mem_cons.mpr (Or.inr h)))

theorem foldl_best_ge (xs : List (String × Nat)) : ∀ x : String × Nat,
    x.2 ≤ (xs.foldl (fun best y => if y.2 > best.2 then y else best) x).2 ∧
    ∀ y ∈ xs,
      y.2 ≤ (xs.foldl (fun best y => if y.2 > best.2 then y else best) x).2 := by
  induction xs with
  | nil => intro x; exact ⟨le_refl _, by simp⟩
  | cons y ys ih =>
      intro x
      rw [List.foldl_cons]
      obtain ⟨h1, h2⟩ := ih (if y.2 > x.2 then y else x)
      have hx' : x.2 ≤ (if y.2 > x.2 then y else x).2 := by
        by_cases hc : y.2 > x.2
        · rw [if_pos hc]; exact le_of_lt hc
        · rw [if_neg hc]
      have hy' : y.2 ≤ (if y.2 > x.2 then y else x).2 := by
        by_cases hc : y.2 > x.2
        · rw [if_pos hc]
        · rw [if_neg hc]; exact not_lt.mp hc
      refine ⟨hx'.trans h1, fun z hz => ?_⟩
      rcases List.mem_cons.mp hz with h | h
      · exact h ▸ hy'.trans h1
      · exact h2 z h

theorem bestProfile_mem (scored : List (String × Nat)) (hne : scored ≠ []) :
    bestProfile scored ∈ scored := by
  match scored with
  | [] => exact absurd rfl hne
  | x :: xs => exact foldl_best_mem xs x

theorem bestProfile_ge (scored : List (String × Nat)) :
    ∀ y ∈ scored, y.2 ≤ (bestProfile scored).2 := by
  match scored with
  | [] => intro y hy; simp at hy
  | x :: xs =>
      intro y hy
      obtain ⟨h1, h2⟩ := foldl_best_ge xs x
      rcases List.mem_cons.mp hy with h | h
      · exact h ▸ h1
      · exact h2 y h

theorem profileScore_pos (d : String) (keywords : List String) (kw : String)
    (hkw : kw ∈ keywords) (hocc : occursIn kw d = true) :
    0 < profileScore d keywords := by
  unfold profileScore
  have : kw ∈ keywords.filter (fun kw => occursIn kw d) :=
    List.mem_filter.mpr ⟨hkw, hocc⟩
  exact List.length_pos.mpr (List.ne_nil_of_mem this)

theorem profileScore_zero (d : String) (keywords : List String)
    (h : ∀ kw ∈ keywords, occursIn kw d = false) :
    profileScore d keywords = 0 := by
  unfold profileScore
  rw [List.length_eq_zero]
  rw [List.filter_eq_nil]
  intro kw hkw
  rw [h kw hkw]
  exact Bool.false_ne_true

/-- C5: `suggest_profile` always returns a key of the keyword table; when at
least one keyword of the table occurs as a substring of the lowercased
description the returned profile has a maximal keyword-hit count (each
keyword counted at most once); when no keyword occurs it returns
`"web_app"`. -/
theorem suggest_profile_spec (description : String) :
    suggest_profile description ∈ keyword_map.map Prod.fst ∧
    ((∃ pk ∈ keyword_map, ∃ kw ∈ pk.2,
        occursIn kw (pyLower description) = true) →
      ∃ kws, (suggest_profile description, kws) ∈ keyword_map ∧
        ∀ pk ∈ keyword_map, profileScore (pyLower description) pk.2 ≤
          profileScore (pyLower description) kws) ∧
    ((∀ pk ∈ keyword_map, ∀ kw ∈ pk.2,
        occursIn kw (pyLower description) = false) →
      suggest_profile description = "web_app") := by
  set d := pyLower description with hd
  set scores := keyword_map.map (fun pk => (pk.1, profileScore d pk.2))
    with hscores
  have hne : scores ≠ [] := by simp [hscores, keyword_map]
  have hsug : suggest_profile description =
      if (bestProfile scores).2 > 0 then (bestProfile scores).1
      else "web_app" := rfl
  obtain ⟨pk0, hpk0, hbest⟩ := List.mem_map.mp (bestProfile_mem scores hne)
  have hbest1 : (bestProfile scores).1 = pk0.1 := by rw [← hbest]
  have hbest2 : (bestProfile scores).2 = profileScore d pk0.2 := by
    rw [← hbest]
  refine ⟨?_, ?_, ?_⟩
  · rw [hsug]
    by_cases hpos : (bestProfile scores).2 > 0
    · rw [if_pos hpos, hbest1]
      exact List.mem_map_of_mem Prod.fst hpk0
    · rw [if_neg hpos]
      simp [keyword_map]
  · rintro ⟨pk, hpk, kw, hkw, hocc⟩
    have hscorepos : 0 < profileScore d pk.2 := profileScore_pos d pk.2 kw hkw hocc
    have hmem_s : (pk.1, profileScore d pk.2) ∈ scores :=
      List.mem_map_of_mem _ hpk
    have hle := bestProfile_ge scores _ hmem_s
    have hpos : (bestProfile scores).2 > 0 := lt_of_lt_of_le hscorepos hle
    refine ⟨pk0.2, ?_, ?_⟩
    · rw [hsug, if_pos hpos, hbest1]
      exact hpk0
    · intro pk' hpk'
      have hmem' : (pk'.1, profileScore d pk'.2) ∈ scores :=
        List.mem_map_of_mem _ hpk'
      have h2 := bestProfile_ge scores _ hmem'
      rw [hbest2] at h2
      exact h2
  · intro hnone
    have hzero : (bestProfile scores).2 = 0 := by
      rw [hbest2]
      exact profileScore_zero d pk0.2 (hnone pk0 hpk0)
    have hnpos : ¬ (bestProfile scores).2 > 0 := by
      rw [hzero]
      exact lt_irrefl 0
    rw [hsug, if_neg hnpos]

/-- Closed instance of `suggest_profile_spec`: a keyword-free description
falls back to `"web_app"`. -/
theorem suggest_profile_spec_witness :
    suggest_profile "hello world" = "web_app" :=
  (suggest_profile_spec "hello world").2.2 (by decide)

/-! Embedding of `_save_code_files` and `_parallel_code_generation`
(AIProjectBrigade_Enhanced.py). File-system writes are modelled by
returning the list of (full path, cleaned content) pairs that the loop
writes, alongside the `created` list of dict keys that the method
returns. -/

/-- `str.startswith` via the underlying character lists. -/
def strStartsWith (s pre : String) : Bool :=
  pre.data.isPrefixOf s.data

/-- `str.endswith` via the underlying character lists. -/
def strEndsWith (s suf : String) : Bool :=
  suf.data.isSuffixOf s.data

/-- Python whitespace for `str.strip()`. -/
def pyWs (c : Char) : Bool :=
  c == ' ' || c == '\t' || c == '\n' || c == '\r' || c == '\x0b' || c == '\x0c'

/-- Drop leading Python whitespace. -/
def dropLeading : List Char → List Char
  | [] => []
  | c :: cs => if pyWs c then dropLeading cs else c :: cs

/-- Python `str.strip()`. -/
def pyStrip (s : String) : String :=
  String.mk ((dropLeading ((dropLeading s.data).reverse)).reverse)

/-- Python `str.split("\n")`. -/
def splitLines : List Char → List (List Char)
  | [] => [[]]
  | c :: cs =>
      let rest := splitLines cs
      if c = '\n' then [] :: rest
      else
        match rest with
        | r :: rs => (c :: r) :: rs
        | [] => [[c]]

/-- Python `"\n".join(lines)`. -/
def joinLines : List (List Char) → List Char
  | [] => []
  | [l] => l
  | l :: ls => l ++ '\n' :: joinLines ls

/-- `os.path.join` for one extra component (arguments here are never
absolute in the caller, but the absolute-override is kept). -/
def pyPathJoin (a b : String) : String :=
  if strStartsWith b "/" then b
  else if a = "" then b
  else if strEndsWith a "/" then a ++ b
  else a ++ "/" ++ b

/-- The content-cleaning step of `_save_code_files`: strip, and when the
text starts with a code fence drop its first line and a trailing
fence-only last line. -/
def cleanContent (content : String) : String :=
  let content := pyStrip content
  if strStartsWith content "```" then
    let lines := (splitLines content.data).drop 1
    let lines2 :=
      match lines.getLast? with
      | some last =>
          if pyStrip (String.mk last) = "```" then lines.dropLast else lines
      | none => lines
    String.mk (joinLines lines2)
  else content

/-- `_save_code_files`: for each `(filepath, content)` entry whose content
is longer than 10 characters, computes the full path (under `subdirectory`
when non-empty), writes the cleaned content there, and records `filepath`
in the returned `created` list. Result: (written files, `created`). -/
def save_code_files (project_dir : String)
    (code_dict : List (String × String)) (subdirectory : String) :
    List (String × String) × List String :=
  match code_dict with
  | [] => ([], [])
  | (filepath, content) :: rest =>
      let other := save_code_files project_dir rest subdirectory
      if 10 < content.length then
        let full_path :=
          if subdirectory ≠ "" then
            pyPathJoin (pyPathJoin project_dir subdirectory) filepath
          else pyPathJoin project_dir filepath
        ((full_path, cleanContent content) :: other.1, filepath :: other.2)
      else other

/-- The three code-generation agents fanned out by
`_parallel_code_generation`, in the order they are submitted. -/
def codeGenAgents : List String := ["FrontendAI", "BackendAI", "DataAI"]

/-- The fixed per-agent output subdirectory. -/
def agentSubdirectory (name : String) : String :=
  if name = "FrontendAI" then "10_Code/Frontend"
  else if name = "BackendAI" then "10_Code/Backend"
  else if name = "DataAI" then "10_Code/Backend/data"
  else ""

/-- `_parallel_code_generation`: each agent's `generate_code` call either
returns a code dict or raises (`outcomes`); a raising agent contributes
`[]`, a successful one the `created` list of `_save_code_files` under its
subdirectory. The fan-in dict is modelled as an association list over the
three agents; completion order only affects dict insertion order, not the
mapping. -/
def parallel_code_generation
    (outcomes : String → Except Unit (List (String × String)))
    (project_dir : String) : List (String × List String) :=
  codeGenAgents.map (fun name =>
    (name,
      match outcomes name with
      | Except.ok code_dict =>
          (save_code_files project_dir code_dict (agentSubdirectory name)).2
      | Except.error _ => []))

theorem save_code_files_created (project_dir subdirectory : String) :
    ∀ code_dict : List (String × String),
      (save_code_files project_dir code_dict subdirectory).2 =
        (code_dict.filter (fun fc => 10 < fc.2.length)).map Prod.fst := by
  intro code_dict
  induction code_dict with
  | nil => rfl
  | cons fc rest ih =>
      obtain ⟨filepath, content⟩ := fc
      rw [save_code_files]
      by_cases h : 10 < content.length
      · rw [if_pos h]
        simp only [List.filter_cons]
        rw [if_pos (by simpa using h)]
        simp only [List.map_cons]
        rw [ih]
      · rw [if_neg h]
        simp only [List.filter_cons]
        rw [if_neg (by simpa using h)]
        exact ih

theorem save_code_files_written (project_dir subdirectory : String)
    (hsub : subdirectory ≠ "") :
    ∀ code_dict : List (String × String),
      ∀ w ∈ (save_code_files project_dir code_dict subdirectory).1,
        ∃ f c, (f, c) ∈ code_dict ∧ 10 < c.length ∧
          w.1 = pyPathJoin (pyPathJoin project_dir subdirectory) f ∧
          w.2 = cleanContent c := by
  intro code_dict
  induction code_dict with
  | nil => intro w hw; simp [save_code_files] at hw
  | cons fc rest ih =>
      obtain ⟨filepath, content⟩ := fc
      intro w hw
      rw [save_code_files] at hw
      by_cases h : 10 < content.length
      · rw [if_pos h] at hw
        rcases List.mem_cons.mp hw with hw | hw
        · refine ⟨filepath, content, List.mem_cons_self _ _, h, ?_, ?_⟩
          · rw [hw]
            show (if subdirectory ≠ "" then
                pyPathJoin (pyPathJoin project_dir subdirectory) filepath
              else pyPathJoin project_dir filepath) = _
            rw [if_pos hsub]
          · rw [hw]
        · obtain ⟨f, c, hm, hl, h1, h2⟩ := ih w hw
          exact ⟨f, c, List.mem_cons.mpr (Or.inr hm), hl, h1, h2⟩
      · rw [if_neg h] at hw
        obtain ⟨f, c, hm, hl, h1, h2⟩ := ih w hw
        exact ⟨f, c, List.mem_cons.mpr (Or.inr hm), hl, h1, h2⟩

theorem pcg_lookup (outcomes : String → Except Unit (List (String × String)))
    (project_dir : String) (name : String) (hname : name ∈ codeGenAgents) :
    (parallel_code_generation outcomes project_dir).lookup name =
      some (match outcomes name with
        | Except.ok code_dict =>
            (save_code_files project_dir code_dict (agentSubdirectory name)).2
        | Except.error _ => []) := by
  fin_cases hname <;> rfl

/-- C7: the fan-in mapping of `_parallel_code_generation` has exactly the
three agents FrontendAI, BackendAI, DataAI as keys; an agent whose
generation raised maps to the empty file list; a successful agent maps to
the `created` list of its `_save_code_files` call, every written file lying
under that agent's fixed subdirectory; and each agent's entry depends only
on that agent's own outcome. -/
theorem parallel_code_generation_spec
    (outcomes : String → Except Unit (List (String × String)))
    (project_dir : String) :
    ((parallel_code_generation outcomes project_dir).map Prod.fst =
      ["FrontendAI", "BackendAI", "DataAI"]) ∧
    (∀ name e, name ∈ codeGenAgents → outcomes name = Except.error e →
      (parallel_code_generation outcomes project_dir).lookup name = some []) ∧
    (∀ name cd, name ∈ codeGenAgents → outcomes name = Except.ok cd →
      (parallel_code_generation outcomes project_dir).lookup name =
        some ((cd.filter (fun fc => 10 < fc.2.length)).map Prod.fst) ∧
      ∀ w ∈ (save_code_files project_dir cd (agentSubdirectory name)).1,
        ∃ f c, (f, c) ∈ cd ∧ 10 < c.length ∧
          w.1 = pyPathJoin (pyPathJoin project_dir (agentSubdirectory name)) f ∧
          w.2 = cleanContent c) ∧
    (∀ outcomes' name, name ∈ codeGenAgents → outcomes name = outcomes' name →
      (parallel_code_generation outcomes project_dir).lookup name =
        (parallel_code_generation outcomes' project_dir).lookup name) := by
  refine ⟨rfl, ?_, ?_, ?_⟩
  · intro name e hname herr
    rw [pcg_lookup outcomes project_dir name hname, herr]
  · intro name cd hname hok
    have hsub : agentSubdirectory name ≠ "" := by
      fin_cases hname <;> simp [agentSubdirectory]
    constructor
    · rw [pcg_lookup outcomes project_dir name hname, hok]
      show some ((save_code_files project_dir cd (agentSubdirectory name)).2) = _
      rw [save_code_files_created]
    · exact save_code_files_written project_dir (agentSubdirectory name) hsub cd
  · intro outcomes' name hname heq
    rw [pcg_lookup outcomes project_dir name hname,
      pcg_lookup outcomes' project_dir name hname, heq]

/-- Closed instance of `parallel_code_generation_spec`: BackendAI raising
yields an empty entry while FrontendAI's long-enough file is recorded. -/
theorem parallel_code_generation_spec_witness :
    (parallel_code_generation
      (fun name => if name = "BackendAI" then Except.error ()
        else Except.ok [("main.py", "print('hello world')")])
      "proj").lookup "BackendAI" = some [] ∧
    (parallel_code_generation
      (fun name => if name = "BackendAI" then Except.error ()
        else Except.ok [("main.py", "print('hello world')")])
      "proj").lookup "FrontendAI" = some ["main.py"] := by
  constructor
  · exact (parallel_code_generation_spec _ "proj").2.1 "BackendAI" ()
      (by decide) rfl
  · have h := ((parallel_code_generation_spec
      (fun name => if name = "BackendAI" then Except.error ()
        else Except.ok [("main.py", "print('hello world')")])
      "proj").2.2.1 "FrontendAI" [("main.py", "print('hello world')")]
      (by decide) rfl).1
    rw [h]
    rfl

/-! Embedding of `_parse_json` (AIProjectBrigade_Enhanced.py). `json.loads`
is modelled by `json_loads`, a recursive-descent JSON reader over character
lists; numbers are restricted to integer literals (floats and exponents are
treated as a parse failure) and string escapes to the common single-character
ones, which is all the development relies on. -/

/-- JSON values. -/
inductive Json where
  | null
  | bool (b : Bool)
  | num (n : Int)
  | str (s : String)
  | arr (xs : List Json)
  | obj (kvs : List (String × Json))

/-- Skip JSON whitespace. -/
def skipWs : List Char → List Char
  | [] => []
  | c :: cs =>
      if c = ' ' ∨ c = '\t' ∨ c = '\n' ∨ c = '\r' then skipWs cs else c :: cs

/-- Body of a JSON string literal, after the opening quote; returns the
decoded characters and the remainder after the closing quote. -/
def parseStringBody : List Char → Option (List Char × List Char)
  | [] => none
  | '"' :: rest => some ([], rest)
  | '\\' :: c :: rest =>
      let esc : Option Char :=
        if c = '"' then some '"'
        else if c = '\\' then some '\\'
        else if c = '/' then some '/'
        else if c = 'n' then some '\n'
        else if c = 't' then some '\t'
        else if c = 'r' then some '\r'
        else none
      match esc with
      | some e =>
          match parseStringBody rest with
          | some (s, r) => some (e :: s, r)
          | none => none
      | none => none
  | c :: rest =>
      match parseStringBody rest with
      | some (s, r) => some (c :: s, r)
      | none => none

/-- Longest digit prefix and the remainder. -/
def takeDigits : List Char → List Char × List Char
  | [] => ([], [])
  | c :: cs =>
      if c.isDigit then
        let other := takeDigits cs
        (c :: other.1, other.2)
      else ([], c :: cs)

/-- Decimal value of a digit list. -/
def digitsToNat (ds : List Char) : Nat :=
  ds.foldl (fun acc c => acc * 10 + (c.toNat - 48)) 0

/-- A JSON integer literal (floats and exponents rejected). -/
def parseNumber (cs : List Char) : Option (Json × List Char) :=
  let signed : Bool × List Char :=
    match cs with
    | '-' :: rest => (true, rest)
    | _ => (false, cs)
  match takeDigits signed.2 with
  | ([], _) => none
  | (ds, r) =>
      let n : Int := digitsToNat ds
      let v := Json.num (if signed.1 then -n else n)
      match r with
      | c :: _ => if c = '.' ∨ c = 'e' ∨ c = 'E' then none else some (v, r)
      | [] => some (v, [])

mutual

/-- A JSON value, fuelled. -/
def parseVal : Nat → List Char → Option (Json × List Char)
  | 0, _ => none
  | fuel + 1, cs =>
      match skipWs cs with
      | [] => none
      | 'n' :: rest =>
          if rest.take 3 = ['u', 'l', 'l'] then some (Json.null, rest.drop 3)
          else none
      | 't' :: rest =>
          if rest.take 3 = ['r', 'u', 'e'] then
            some (Json.bool true, rest.drop 3)
          else none
      | 'f' :: rest =>
          if rest.take 4 = ['a', 'l', 's', 'e'] then
            some (Json.bool false, rest.drop 4)
          else none
      | '"' :: rest =>
          match parseStringBody rest with
          | some (s, r) => some (Json.str (String.mk s), r)
          | none => none
      | '[' :: rest =>
          match skipWs rest with
          | ']' :: r => some (Json.arr [], r)
          | _ =>
              match parseElems fuel rest with
              | some (xs, r) => some (Json.arr xs, r)
              | none => none
      | '{' :: rest =>
          match skipWs rest with
          | '}' :: r => some (Json.obj [], r)
          | _ =>
              match parseMembers fuel rest with
              | some (kvs, r) => some (Json.obj kvs, r)
              | none => none
      | c :: rest =>
          if c = '-' ∨ c.isDigit then parseNumber (c :: rest) else none

/-- Comma-separated JSON values up to a closing bracket, fuelled. -/
def parseElems : Nat → List Char → Option (List Json × List Char)
  | 0, _ => none
  | fuel + 1, cs =>
      match parseVal fuel cs with
      | some (v, r) =>
          match skipWs r with
          | ',' :: r2 =>
              match parseElems fuel r2 with
              | some (xs, r3) => some (v :: xs, r3)
              | none => none
          | ']' :: r2 => some ([v], r2)
          | _ => none
      | none => none

/-- Comma-separated JSON object members up to a closing brace, fuelled. -/
def parseMembers : Nat → List Char → Option (List (String × Json) × List Char)
  | 0, _ => none
  | fuel + 1, cs =>
      match skipWs cs with
      | '"' :: rest =>
          match parseStringBody rest with
          | some (k, r) =>
              match skipWs r with
              | ':' :: r2 =>
                  match parseVal fuel r2 with
                  | some (v, r3) =>
                      match skipWs r3 with
                      | ',' :: r4 =>
                          match parseMembers fuel r4 with
                          | some (kvs, r5) => some ((String.mk k, v) :: kvs, r5)
                          | none => none
                      | '}' :: r4 => some ([(String.mk k, v)], r4)
                      | _ => none
                  | none => none
              | _ => none
          | none => none
      | _ => none

end

/-- `json.loads`: parse one JSON value and require only whitespace after
it. -/
def json_loads (s : String) : Option Json :=
  match parseVal (2 * s.length + 2) s.data with
  | some (v, r) => if skipWs r = [] then some v else none
  | none => none

/-- The cleaning prefix of `_parse_json`: `strip()`, then drop a leading
"```json" (7 characters) or "```" (3 characters), then a trailing "```". -/
def stripFences (s : String) : String :=
  let s := pyStrip s
  let s :=
    if strStartsWith s "```json" then String.mk (s.data.drop 7)
    else if strStartsWith s "```" then String.mk (s.data.drop 3)
    else s
  if strEndsWith s "```" then String.mk (s.data.take (s.data.length - 3))
  else s

/-- `_parse_json`: cleans the response, runs the decoder (`json.loads`) on
the re-stripped cleaned text, and on decode failure returns
`{"raw_response": <cleaned text>}` — the `response` variable at exception
time holds the cleaned text, not the original argument. Parameterized over
the decoder; `json_loads` instantiates it. -/
def parse_json (decode : String → Option Json) (response : String) : Json :=
  let response := stripFences response
  match decode (pyStrip response) with
  | some v => v
  | none => Json.obj [("raw_response", Json.str response)]

/-- C2 counterexample: on `"  x  "` (whose stripped form `"x"` is not valid
JSON) the fallback dict maps `"raw_response"` to the cleaned text `"x"`, not
to the input text `"  x  "` as claimed. -/
theorem parse_json_raw_counterexample :
    parse_json json_loads "  x  " = Json.obj [("raw_response", Json.str "x")] ∧
    parse_json json_loads "  x  " ≠
      Json.obj [("raw_response", Json.str "  x  ")] := by
  constructor
  · rfl
  · intro h
    have h2 : Json.obj [("raw_response", Json.str "x")] =
        Json.obj [("raw_response", Json.str "  x  ")] := by
      rw [← h]
      rfl
    simp at h2

/-- C2 (amended): `_parse_json` never raises; when the decoder succeeds on
the cleaned response (stripped of surrounding whitespace and markdown code
fences, then re-stripped) the decoded value is returned, and when the
decoder fails the result is a dict with the single key `"raw_response"`
mapping to the cleaned text — the input after whitespace/fence stripping —
rather than the original input. -/
theorem parse_json_spec (decode : String → Option Json) (response : String) :
    (∀ v, decode (pyStrip (stripFences response)) = some v →
      parse_json decode response = v) ∧
    (decode (pyStrip (stripFences response)) = none →
      parse_json decode response =
        Json.obj [("raw_response", Json.str (stripFences response))]) := by
  constructor
  · intro v h
    simp only [parse_json]
    rw [h]
  · intro h
    simp only [parse_json]
    rw [h]

/-- Closed instance of `parse_json_spec`: a fenced JSON object is decoded
to its value. -/
theorem parse_json_spec_witness :
    parse_json json_loads "```json \x7b\"a\": 1\x7d ```" =
      Json.obj [("a", Json.num 1)] :=
  (parse_json_spec json_loads "```json \x7b\"a\": 1\x7d ```").1
    (Json.obj [("a", Json.num 1)]) rfl
